import Mathlib

/-!
Verification of the KaraKeep companion dashboard core (hierarchy building,
column layout, search filtering, rendering and preference persistence),
shallowly embedded from the two application variants in the repository:
the standalone SQLite app (src/app.js) and the cache-backed app
(src/unnamed/part_000, first document).
-/

namespace Karakeep

/-- JS `a || b` on string values: the empty string is falsy.  SQL NULL and JS
`undefined`/`null` string fields are represented as `""`, which `||` cannot
distinguish from the empty string. -/
def jsOr (a b : String) : String := if a = "" then b else a

/-- Truthiness of an optional string field (JS: `x &&` guard): absent values
and the empty string are falsy. -/
def optTruthy : Option String → Bool
  | none => false
  | some s => !(s == "")

/-- A bookmark row as consumed by `loadBookmarks` (src/app.js) and
`loadBookmarksFromCache` (src/unnamed/part_000): `bookmark_title` is the
user-set title, `link_title` the crawled title; `""` stands for an
absent/NULL value.  `listId` is the owning-list reference, `none` when the
row carries no list id. -/
structure Bookmark where
  id : String
  bookmark_title : String
  link_title : String
  url : String
  favicon : String
  listId : Option String
deriving DecidableEq, Repr

/-- A list row as returned by the lists query / lists endpoint. -/
structure ListRow where
  id : String
  name : String
  icon : String
  parentId : Option String
deriving DecidableEq, Repr

/-- One step of the bookmark-attachment pass of `loadBookmarks`
(src/app.js line 120): `if (listsById[bookmark.listId])
listsById[bookmark.listId].bookmarks.push(bookmark)`.  The mutable
`listsById` bookmark arrays are modelled as a map from list id to the
bookmarks pushed so far; `known` is the set of fetched list ids (the keys
of `listsById`). -/
def attachStep (known : List String) (m : String → List Bookmark) (b : Bookmark) :
    String → List Bookmark :=
  match b.listId with
  | some lid => if lid ∈ known then (fun i => if i = lid then m i ++ [b] else m i) else m
  | none => m

/-- The whole attachment pass of `loadBookmarks` (src/app.js lines 117-120):
bookmarks of list `i` after iterating over all bookmark rows. -/
def attachBookmarks (known : List String) (bms : List Bookmark) : String → List Bookmark :=
  bms.foldl (attachStep known) (fun _ => [])

/-- One step of the attachment pass of `loadBookmarksFromCache`
(src/unnamed/part_000 lines 104-120): `if (bookmark.listId &&
listsById[bookmark.listId]) ... push(transformedBookmark)`; unlike the
standalone variant it also requires `listId` to be truthy. -/
def attachStepCache (known : List String) (m : String → List Bookmark) (b : Bookmark) :
    String → List Bookmark :=
  match b.listId with
  | some lid =>
    if lid ≠ "" ∧ lid ∈ known then (fun i => if i = lid then m i ++ [b] else m i) else m
  | none => m

/-- The whole attachment pass of `loadBookmarksFromCache`. -/
def attachBookmarksCache (known : List String) (bms : List Bookmark) : String → List Bookmark :=
  bms.foldl (attachStepCache known) (fun _ => [])

/-- Display-title resolution of `renderBookmark` (src/app.js line 248):
`bookmark.bookmark_title || bookmark.link_title || 'Untitled'`. -/
def resolvedTitle (b : Bookmark) : String := jsOr b.bookmark_title (jsOr b.link_title "Untitled")

/-- JS `s.toLowerCase()`, as the character list of the result. -/
def jsToLower (s : String) : List Char := s.toList.map Char.toLower

/-- Sort key of the bookmark sort in `loadBookmarksFromCache`
(src/unnamed/part_000 lines 122-129): the resolved title, lower-cased. -/
def sortKey (b : Bookmark) : List Char := jsToLower (resolvedTitle b)

/-- Comparator of the cache-variant bookmark sort: `localeCompare` on the
lower-cased resolved titles.  The locale-aware comparison of the browser is
modelled as the code-point order on the lower-cased keys. -/
def bkLe (a b : Bookmark) : Prop := sortKey a ≤ sortKey b

instance : DecidableRel bkLe := fun a b => inferInstanceAs (Decidable (sortKey a ≤ sortKey b))

instance : IsTotal Bookmark bkLe := ⟨fun a b => le_total (sortKey a) (sortKey b)⟩

instance : IsTrans Bookmark bkLe := ⟨fun _ _ _ h1 h2 => le_trans h1 h2⟩

/-- Bookmarks of list `i` in the cache variant after attachment and the
in-place `Array.prototype.sort` (modelled as a comparison sort with the
same comparator). -/
def cacheBookmarksOf (known : List String) (bms : List Bookmark) (i : String) : List Bookmark :=
  List.insertionSort bkLe (attachBookmarksCache known bms i)

/-- Modelled from SQLite (an external engine, not code of this repository):
the key of `ORDER BY COALESCE(b.title, bl.title)` in the standalone
`loadBookmarks` query (src/app.js line 110).  `""` stands for SQL NULL
here, so COALESCE falls through exactly on `""`. -/
def sqlOrderKey (b : Bookmark) : List Char :=
  if b.bookmark_title = "" then b.link_title.toList else b.bookmark_title.toList

/-- Modelled from SQLite: the default BINARY collation used by that ORDER BY
is code-point (byte) order, which is case-sensitive. -/
def sqlLe (a b : Bookmark) : Prop := sqlOrderKey a ≤ sqlOrderKey b

instance : DecidableRel sqlLe := fun a b => inferInstanceAs (Decidable (sqlOrderKey a ≤ sqlOrderKey b))

/-- Tests whether `needle` is an element-wise leading segment of `hay`. -/
def startsList : List Char → List Char → Bool
  | [], _ => true
  | _ :: _, [] => false
  | a :: as, b :: bs => a = b && startsList as bs

/-- Tests whether `needle` occurs contiguously inside `hay`. -/
def containsSub (needle : List Char) : List Char → Bool
  | [] => needle.isEmpty
  | c :: t => startsList needle (c :: t) || containsSub needle t

/-- JS `hay.includes(needle)` on already lower-cased character lists:
substring containment. -/
def jsIncludes (hay needle : List Char) : Bool := containsSub needle hay

/-- Splits a character list at the first `"://"`, returning the part before
and the part after. -/
def splitScheme : List Char → Option (List Char × List Char)
  | [] => none
  | ':' :: '/' :: '/' :: rest => some ([], rest)
  | c :: rest => (splitScheme rest).map (fun p => (c :: p.1, p.2))

/-- Characters allowed in a URL scheme after the leading letter. -/
def isSchemeChar (c : Char) : Bool := c.isAlphanum || c = '+' || c = '-' || c = '.'

/-- The characters after the last `'@'` (the whole list when there is none). -/
def afterLastAt (l : List Char) : List Char := (l.reverse.takeWhile (fun c => c ≠ '@')).reverse

/-- Modelled from the browser's URL API (an external platform facility, not
code of this repository), as used by `renderBookmark` via
`new URL(bookmark.url).hostname`: a URL parses when it has the shape
`scheme://[userinfo@]host[:port][/?#...]` with an alphabetic-led scheme and
a nonempty host; other shapes (no `"://"`, invalid scheme, empty host,
IPv6 bracket hosts) are treated as unparsable. -/
def parseHostname (s : String) : Option String :=
  match splitScheme s.toList with
  | none => none
  | some (scheme, rest) =>
    match scheme with
    | [] => none
    | c :: cs =>
      if c.isAlpha && cs.all isSchemeChar then
        let authority := rest.takeWhile (fun ch => ch ≠ '/' && ch ≠ '?' && ch ≠ '#')
        let host := (afterLastAt authority).takeWhile (fun ch => ch ≠ ':')
        if host.isEmpty then none else some (String.mk host)
      else none

/-- The Google favicon-service fallback URL built by `renderBookmark`
(src/app.js line 258). -/
def faviconServiceUrl (host : String) : String :=
  "https://www.google.com/s2/favicons?domain=" ++ host ++ "&sz=32"

/-- The layout-preference object: `columnLayout` maps column index to the
ordered root-list id sequence of that column (`none` when the field is
absent, i.e. JS-falsy; a present but empty object is `some []`), and
`columnOrder` is the legacy flat id order. -/
structure Preferences where
  columnLayout : Option (List (List String))
  columnOrder : List String
deriving DecidableEq, Repr

/-- The two localStorage keys used by the standalone app
(`karakeep-column-layout`, `karakeep-column-order`). -/
structure LocalStore where
  layoutKey : Option (List (List String))
  orderKey : Option (List String)
deriving DecidableEq, Repr

/-- Outcome of the preferences POST in `saveColumnOrder`: a 2xx response, a
non-2xx response, or a network error (rejected fetch). -/
inductive NetResult where
  | success
  | failure
  | networkError
deriving DecidableEq, Repr

/-- Observable effects of one `saveColumnOrder` run, in order. -/
inductive SaveEvent where
  | localWriteLayout (v : List (List String))
  | localWriteOrder (v : List String)
  | netWrite (body : Preferences)
  | logNote (msg : String)
deriving DecidableEq, Repr

/-- The mutable state touched by `saveColumnOrder`: the in-memory
`config.preferences` and the localStorage fallback. -/
structure SaveState where
  preferences : Preferences
  store : LocalStore
deriving DecidableEq, Repr

/-- Number of display columns (src/app.js line 9). -/
def NUM_COLUMNS : Nat := 4

/-- Model of `saveColumnOrder` of the standalone app (src/app.js lines 311-356).
`dom` is the per-column list-id sequences read back from the rendered
columns; `net` is the outcome of the preferences POST.  Returns the new
state and the ordered effect list.  The function is total: the fetch sits
inside try/catch and a non-ok response only logs, so no exception ever
escapes to the caller. -/
def saveColumnOrder (dom : List (List String)) (net : NetResult) (s : SaveState) :
    SaveState × List SaveEvent :=
  let columnLayout := dom
  let order := ((List.range NUM_COLUMNS).filterMap (fun i => columnLayout.get? i)).flatten
  let prefs : Preferences := { columnLayout := some columnLayout, columnOrder := order }
  let newStore : LocalStore := { layoutKey := some columnLayout, orderKey := some order }
  let logMsg : String :=
    match net with
    | .success => "Preferences saved to server"
    | .failure => "Server save failed, but localStorage backup exists"
    | .networkError => "No server available, using localStorage only"
  ({ preferences := prefs, store := newStore },
   [SaveEvent.localWriteLayout columnLayout, SaveEvent.localWriteOrder order,
    SaveEvent.netWrite prefs, SaveEvent.logNote logMsg])

/-- The raw configuration JSON: `""` stands for an absent/empty
`karakeepUrl` or `bookmarkTarget`, `none` for an absent `preferences`
field. -/
structure ConfigJson where
  karakeepUrl : String
  bookmarkTarget : String
  preferences : Option Preferences
deriving DecidableEq, Repr

/-- Outcome of `fetch('./config.json')`: a successful parse, a non-ok
response, or a network/parse error carrying its message. -/
inductive ConfigFetch where
  | ok (c : ConfigJson)
  | notOk
  | networkError (msg : String)
deriving DecidableEq, Repr

/-- The in-memory `config` object after loading. -/
structure Config where
  karakeepUrl : String
  bookmarkTarget : String
  preferences : Preferences
deriving DecidableEq, Repr

/-- The default preferences object `{ columnOrder: [], columnLayout: {} }`:
note that the empty object `{}` is a present (truthy) layout. -/
def defaultPreferences : Preferences := { columnLayout := some [], columnOrder := [] }

/-- Model of `loadSavedPreferences` of the standalone app (src/app.js lines
457-487): prefer the saved column layout; fall back to the legacy flat
order only when no layout is stored.  Unparsable stored values are
modelled as absent keys. -/
def loadSavedPreferences (store : LocalStore) (p : Preferences) : Preferences :=
  match store.layoutKey with
  | some layout => { p with columnLayout := some layout }
  | none =>
    match store.orderKey with
    | some order => { p with columnOrder := order }
    | none => p

/-- Model of `loadConfig` of the standalone app (src/app.js lines 26-62): a non-ok
response or a fetch error falls back to built-in defaults plus the
localStorage preferences; the function never fails. -/
def loadConfigStandalone (f : ConfigFetch) (store : LocalStore) : Config :=
  match f with
  | .ok c =>
    { karakeepUrl := c.karakeepUrl, bookmarkTarget := c.bookmarkTarget,
      preferences := c.preferences.getD defaultPreferences }
  | .notOk =>
    { karakeepUrl := "http://localhost:3000", bookmarkTarget := "_self",
      preferences := loadSavedPreferences store defaultPreferences }
  | .networkError _ =>
    { karakeepUrl := "http://localhost:3000", bookmarkTarget := "_self",
      preferences := loadSavedPreferences store defaultPreferences }

/-- Model of `loadConfig` of the cache app (src/unnamed/part_000 lines 23-52): a
non-ok response throws, a missing `karakeepUrl` throws, a fetch error is
rethrown; otherwise missing `preferences` are defaulted. -/
def loadConfigCache (f : ConfigFetch) : Except String Config :=
  match f with
  | .ok c =>
    if c.karakeepUrl = "" then Except.error "Missing karakeepUrl in config"
    else
      Except.ok
        { karakeepUrl := c.karakeepUrl, bookmarkTarget := c.bookmarkTarget,
          preferences := c.preferences.getD defaultPreferences }
  | .notOk => Except.error "Could not load config.json"
  | .networkError msg => Except.error msg

/-- What `init` leaves on screen after the configuration stage: the app
page (with the loaded config) or the full-page error state rendered by
`showError`. -/
inductive InitView where
  | page (c : Config)
  | errorPage (title message : String)
deriving DecidableEq, Repr

/-- Configuration stage of `init` in the cache app (src/unnamed/part_000
lines 11-20): a throwing `loadConfig` is caught and surfaced as a
full-page error. -/
def initCacheConfigStage (f : ConfigFetch) : InitView :=
  match loadConfigCache f with
  | .ok c => InitView.page c
  | .error msg => InitView.errorPage "Failed to initialize application" msg

/-- Configuration stage of `init` in the standalone app (src/app.js lines
15-23): `loadConfig` never throws, so this stage always proceeds to the
page. -/
def initStandaloneConfigStage (f : ConfigFetch) (store : LocalStore) : InitView :=
  InitView.page (loadConfigStandalone f store)

/-- The parts of a rendered bookmark anchor relevant to the claims:
`favicon = none` means no favicon `<img>` element is emitted at all. -/
structure RenderedBookmark where
  title : String
  href : String
  favicon : Option String
  target : String
deriving DecidableEq, Repr

/-- Model of `renderBookmark` of the standalone app (src/app.js lines 245-285).
`bookmark.asset?.sourceUrl` is always undefined for the query rows, so the
href chain reduces to `bookmark.url || '#'`. -/
def renderBookmark (c : Config) (b : Bookmark) : RenderedBookmark :=
  let title := jsOr b.bookmark_title (jsOr b.link_title "Untitled")
  let url := jsOr b.url "#"
  let faviconUrl :=
    if b.favicon ≠ "" then b.favicon
    else if b.url ≠ "" then
      match parseHostname b.url with
      | some host => faviconServiceUrl host
      | none => ""
    else ""
  { title := title, href := url,
    favicon := if faviconUrl = "" then none else some faviconUrl,
    target := jsOr c.bookmarkTarget "_self" }

/-- A rendered bookmark anchor as seen by `filterBookmarks`: its visible
text content, its full `title` attribute, its `href`, and its current
visibility (display style not `none`). -/
structure RBookmark where
  text : String
  title : String
  href : String
  visible : Bool
deriving DecidableEq, Repr

/-- A rendered level-2 nested list container. -/
structure RNested2 where
  bookmarks : List RBookmark
  visible : Bool
deriving DecidableEq, Repr

/-- A rendered level-1 nested list container with its level-2 children. -/
structure RNested1 where
  bookmarks : List RBookmark
  nested2 : List RNested2
  visible : Bool
deriving DecidableEq, Repr

/-- A rendered root list card (`.list-section`). -/
structure RSection where
  bookmarks : List RBookmark
  nested1 : List RNested1
  visible : Bool
deriving DecidableEq, Repr

/-- A rendered grid column (`.grid-column`). -/
structure RColumn where
  sections : List RSection
  visible : Bool
deriving DecidableEq, Repr

/-- The match test of `filterBookmarks` (src/app.js lines 393-400): the
anchor's text content, title attribute and href, each lower-cased, tested
for substring containment of the (already lower-cased) search term. -/
def matchesQuery (q : String) (b : RBookmark) : Bool :=
  jsIncludes (jsToLower b.text) q.toList || jsIncludes (jsToLower b.title) q.toList ||
    jsIncludes (jsToLower b.href) q.toList

/-- All bookmark anchors in the subtree of a level-1 nested list, in
document order (its own grid, then its level-2 children), as returned by
`querySelectorAll('.bookmark-item')` on that container. -/
def n1Bookmarks (n : RNested1) : List RBookmark :=
  n.bookmarks ++ (n.nested2.map RNested2.bookmarks).flatten

/-- All bookmark anchors in the subtree of a root list card. -/
def sectionBookmarks (s : RSection) : List RBookmark :=
  s.bookmarks ++ (s.nested1.map n1Bookmarks).flatten

/-- Per-bookmark step of `filterBookmarks`: show iff it matches. -/
def filterRB (q : String) (b : RBookmark) : RBookmark :=
  { b with visible := matchesQuery q b }

/-- Level-2 containers are shown iff one of their own bookmarks matches. -/
def filterN2 (q : String) (n : RNested2) : RNested2 :=
  { bookmarks := n.bookmarks.map (filterRB q),
    visible := n.bookmarks.any (matchesQuery q) }

/-- Level-1 containers are shown iff some bookmark in their subtree
matches (their `querySelectorAll` also reaches into level-2 children). -/
def filterN1 (q : String) (n : RNested1) : RNested1 :=
  { bookmarks := n.bookmarks.map (filterRB q),
    nested2 := n.nested2.map (filterN2 q),
    visible := (n1Bookmarks n).any (matchesQuery q) }

/-- Root cards are shown iff some bookmark in their subtree matches. -/
def filterSection (q : String) (s : RSection) : RSection :=
  { bookmarks := s.bookmarks.map (filterRB q),
    nested1 := s.nested1.map (filterN1 q),
    visible := (sectionBookmarks s).any (matchesQuery q) }

/-- Columns are shown iff they contain a root card with a matching
bookmark (src/app.js lines 436-447). -/
def filterColumn (q : String) (c : RColumn) : RColumn :=
  { sections := c.sections.map (filterSection q),
    visible := c.sections.any (fun s => (sectionBookmarks s).any (matchesQuery q)) }

/-- The reset branch of `filterBookmarks` (src/app.js lines 369-382):
every bookmark, nested container, root card and column back to visible. -/
def showRB (b : RBookmark) : RBookmark := { b with visible := true }

def showN2 (n : RNested2) : RNested2 :=
  { bookmarks := n.bookmarks.map showRB, visible := true }

def showN1 (n : RNested1) : RNested1 :=
  { bookmarks := n.bookmarks.map showRB, nested2 := n.nested2.map showN2, visible := true }

def showSection (s : RSection) : RSection :=
  { bookmarks := s.bookmarks.map showRB, nested1 := s.nested1.map showN1, visible := true }

def showColumn (c : RColumn) : RColumn :=
  { sections := c.sections.map showSection, visible := true }

def setAllVisible (cols : List RColumn) : List RColumn := cols.map showColumn

/-- Model of `filterBookmarks` (src/app.js lines 365-448) on the rendered grid: the
search term is the raw input lower-cased and trimmed by `setupSearch`; the
empty term resets everything to visible. -/
def filterBookmarks (q : String) (cols : List RColumn) : List RColumn :=
  if q = "" then setAllVisible cols else cols.map (filterColumn q)

/-- Every rendered bookmark anchor of the grid. -/
def allBookmarksC (cols : List RColumn) : List RBookmark :=
  (cols.map (fun c => (c.sections.map sectionBookmarks).flatten)).flatten

/-- Case-insensitive substring containment, stated independently of the
code: the lower-cased needle occurs contiguously in the lower-cased
field. -/
def SubstrCI (field q : String) : Prop :=
  ∃ pre post, jsToLower field = pre ++ jsToLower q ++ post

/-- A built list node of the hierarchy (`listsById` entries after the
children/bookmarks passes of `loadBookmarks`). -/
inductive KList where
  | node (id name icon : String) (bookmarks : List Bookmark) (children : List KList)

def KList.id : KList → String
  | .node i _ _ _ _ => i

def KList.bookmarks : KList → List Bookmark
  | .node _ _ _ bms _ => bms

def KList.children : KList → List KList
  | .node _ _ _ _ cs => cs

mutual
/-- Model of `hasBookmarksInChildren` (src/app.js lines 148-151): the list owns a
bookmark, or some child subtree does. -/
def hasBookmarksInChildren : KList → Bool
  | .node _ _ _ bms cs => decide (0 < bms.length) || anyHasBookmarks cs

/-- Model of `children.some(child => hasBookmarksInChildren(child))`. -/
def anyHasBookmarks : List KList → Bool
  | [] => false
  | c :: cs => hasBookmarksInChildren c || anyHasBookmarks cs
end

/-- Holds when `d` is `l` itself or a descendant of `l` at any depth. -/
inductive Subnode : KList → KList → Prop where
  | refl (l : KList) : Subnode l l
  | step {d c : KList} {i n ic : String} {bms : List Bookmark} {cs : List KList} :
      c ∈ cs → Subnode d c → Subnode d (KList.node i n ic bms cs)

/-- Builds the `KList` node of a list row: its children are the rows whose
truthy `parentId` points at it (the children pass of `loadBookmarks`,
src/app.js line 119), recursively.  `fuel` bounds the recursion depth; the
callers pass the number of rows, which suffices for any acyclic parent
relation. -/
def buildKList (rows : List ListRow) (bmOf : String → List Bookmark) : Nat → ListRow → KList
  | 0, r => KList.node r.id r.name r.icon (bmOf r.id) []
  | fuel + 1, r =>
    KList.node r.id r.name r.icon (bmOf r.id)
      ((rows.filter (fun c => optTruthy c.parentId && c.parentId == some r.id)).map
        (buildKList rows bmOf fuel))

/-- The root-list pool of `loadBookmarks` (src/app.js lines 122-125):
parentless rows, built into nodes, kept when they or a descendant own a
bookmark. -/
def rootPool (rows : List ListRow) (bms : List Bookmark) : List KList :=
  ((rows.filter (fun r => !(optTruthy r.parentId))).map
      (buildKList rows (attachBookmarks (rows.map ListRow.id) bms) rows.length)).filter
    (fun l => decide (0 < l.bookmarks.length) || hasBookmarksInChildren l)

/-- Model of `listMap.get(id)` where the map was built from the remaining lists in
insertion order: for pools with distinct ids (database primary keys) the
JS `Map` is exactly the remaining sublist in insertion order. -/
def mapGet (m : List KList) (i : String) : Option KList :=
  m.find? (fun l => l.id == i)

/-- Model of `listMap.delete(id)`. -/
def mapDelete (m : List KList) (i : String) : List KList :=
  m.filter (fun l => !(l.id == i))

/-- The per-column id placement loop of `renderLists` (src/app.js lines
166-173): each saved id that still resolves is appended to the column and
consumed from the map; unknown or already-consumed ids are skipped. -/
def placeIds : List String → List KList → List KList → List KList × List KList
  | [], col, m => (col, m)
  | i :: ids, col, m =>
    match mapGet m i with
    | some l => placeIds ids (col ++ [l]) (mapDelete m i)
    | none => placeIds ids col m

/-- The column loop of the saved-layout branch (src/app.js lines 165-174),
iterating the column indices in ascending order. -/
def placeColumns (lay : Nat → List String) :
    List Nat → List (List KList) → List KList → List (List KList) × List KList
  | [], cols, m => (cols, m)
  | c :: cs, cols, m =>
    placeColumns lay cs (cols ++ [(placeIds (lay c) [] m).1]) (placeIds (lay c) [] m).2

/-- Round-robin distribution (`columns[i % NUM_COLUMNS].push(list)`)
starting at counter `i`, used for remaining/unplaced lists and for the
legacy and default branches. -/
def roundRobinFrom : List (List KList) → Nat → List KList → List (List KList)
  | cols, _, [] => cols
  | cols, i, l :: rest =>
    roundRobinFrom (cols.set (i % NUM_COLUMNS) (cols.getD (i % NUM_COLUMNS) [] ++ [l])) (i + 1)
      rest

/-- Model of `columnLayout[colIndex] || []`. -/
def layAt (L : List (List String)) (i : Nat) : List String := L.getD i []

/-- The column-assignment logic of `renderLists` (src/app.js lines
154-206): saved layout first (absent ids skipped, leftovers round-robin
from counter 0), else the legacy flat order (resolved ids first, leftovers
appended, the whole sequence distributed round-robin), else round-robin
over the pool.  `layout = none` models a JS-falsy `columnLayout`; an empty
`columnOrder` and an absent one behave identically
(`columnOrder && columnOrder.length > 0`). -/
def assignColumns (pool : List KList) (layout : Option (List (List String)))
    (order : List String) : List (List KList) :=
  match layout with
  | some L =>
    roundRobinFrom (placeColumns (layAt L) (List.range NUM_COLUMNS) [] pool).1 0
      (placeColumns (layAt L) (List.range NUM_COLUMNS) [] pool).2
  | none =>
    if order.isEmpty then roundRobinFrom (List.replicate NUM_COLUMNS []) 0 pool
    else
      roundRobinFrom (List.replicate NUM_COLUMNS []) 0
        ((placeIds order [] pool).1 ++ (placeIds order [] pool).2)

/-- The first column index (0..NUM_COLUMNS-1) whose saved id sequence
mentions `i` — the column the saved layout assigns `i` to. -/
def firstLayoutCol (L : List (List String)) (i : String) : Option Nat :=
  (List.range NUM_COLUMNS).find? (fun c => (layAt L c).contains i)

/-- The lists of a pool have pairwise distinct ids (database primary
keys), the regime in which the JS `Map` keyed by id is faithfully the
remaining sublist. -/
def NodupIds (m : List KList) : Prop := (m.map KList.id).Nodup


/-- Two concrete bookmarks with user titles "B" and "a", both owned by
list "l1", used in concrete instantiations. -/
def cexB : Bookmark :=
  { id := "b1", bookmark_title := "B", link_title := "", url := "", favicon := "",
    listId := some "l1" }

def cexA : Bookmark :=
  { id := "b2", bookmark_title := "a", link_title := "", url := "", favicon := "",
    listId := some "l1" }

/-- A concrete bookmark with an empty user title, a crawled title, a
parsable URL and no favicon. -/
def exTitled : Bookmark :=
  { id := "b3", bookmark_title := "", link_title := "Example Page",
    url := "https://example.com/page", favicon := "", listId := none }

/-- A concrete bookmark with no titles, an unparsable URL and no favicon. -/
def exPlain : Bookmark :=
  { id := "b4", bookmark_title := "", link_title := "", url := "not a url",
    favicon := "", listId := none }

/-- A concrete loaded configuration used in concrete instantiations. -/
def cfgW : Config :=
  { karakeepUrl := "http://localhost:3000", bookmarkTarget := "",
    preferences := defaultPreferences }

/-- A concrete rendered bookmark anchor used in concrete instantiations. -/
def rustBm : RBookmark :=
  { text := "Rust Book", title := "Rust Book", href := "https://rust-lang.org/book",
    visible := true }

/-- A concrete one-column rendered grid used in concrete instantiations. -/
def wCols : List RColumn :=
  [{ sections := [{ bookmarks := [rustBm], nested1 := [], visible := true }], visible := true }]

/-- Concrete root lists and pools used in concrete instantiations. -/
def wLa : KList := KList.node "l1" "Alpha" "" [cexA] []

def wLb : KList := KList.node "l2" "Beta" "" [cexB] []

def wLc : KList := KList.node "l3" "Gamma" "" [cexA] []

def wPool : List KList := [wLa, wLb, wLc]

/-- A concrete built list whose whole subtree owns no bookmark. -/
def wEmpty : KList := KList.node "l4" "Empty" "" [] []

/-- Concrete list rows: one root list with a bookmark, one empty root
list. -/
def wRows : List ListRow :=
  [{ id := "l1", name := "A", icon := "", parentId := none },
   { id := "l4", name := "Empty", icon := "", parentId := none }]

theorem attach_foldl (known : List String) (bms : List Bookmark)
    (m : String → List Bookmark) (i : String) :
    (bms.foldl (attachStep known) m) i =
      m i ++ (if i ∈ known then bms.filter (fun b => b.listId == some i) else []) := by
  induction bms generalizing m with
  | nil => simp
  | cons b rest ih =>
    simp only [List.foldl_cons]
    rw [ih]
    unfold attachStep
    rcases hbl : b.listId with _ | lid
    · simp [hbl]
    · by_cases hk : lid ∈ known
      · by_cases hi : i = lid
        · subst hi
          simp [hk, hbl, List.append_assoc]
        · simp [hk, hbl, hi, Ne.symm hi]
      · by_cases hik : i ∈ known
        · have : lid ≠ i := fun h => hk (h ▸ hik)
          simp [hk, hbl, hik, this]
        · simp [hk, hbl, hik]

theorem attachBookmarks_eq (known : List String) (bms : List Bookmark) (i : String) :
    attachBookmarks known bms i =
      if i ∈ known then bms.filter (fun b => b.listId == some i) else [] := by
  unfold attachBookmarks
  rw [attach_foldl]
  simp

/-- C3: a bookmark row whose `listId` resolves to a fetched list is
attached to exactly that list's bookmark set (exactly once for distinct
rows), and a row whose `listId` is missing or unknown is attached nowhere;
the pass raises no error (it is a total function). -/
theorem bookmark_attachment_exclusive (known : List String) (bms : List Bookmark)
    (b : Bookmark) :
    (∀ lid, b.listId = some lid → lid ∈ known →
      ∀ i, b ∈ attachBookmarks known bms i ↔ (b ∈ bms ∧ i = lid)) ∧
    ((∀ lid, b.listId = some lid → lid ∉ known) →
      ∀ i, b ∉ attachBookmarks known bms i) ∧
    (b ∈ bms → bms.Nodup → ∀ lid, b.listId = some lid → lid ∈ known →
      (attachBookmarks known bms lid).count b = 1) := by
  refine ⟨?_, ?_, ?_⟩
  · intro lid hlid hk i
    rw [attachBookmarks_eq]
    by_cases hik : i ∈ known
    · simp only [hik, if_pos, List.mem_filter, hlid, beq_iff_eq, Option.some.injEq]
      constructor
      · rintro ⟨hb, hi⟩
        exact ⟨hb, hi.symm⟩
      · rintro ⟨hb, rfl⟩
        exact ⟨hb, rfl⟩
    · simp only [hik, if_neg, not_false_iff, List.not_mem_nil, false_iff, not_and]
      rintro hb rfl
      exact absurd hk hik
  · intro h i hmem
    rw [attachBookmarks_eq] at hmem
    by_cases hik : i ∈ known
    · rw [if_pos hik] at hmem
      rcases List.mem_filter.mp hmem with ⟨_, hb⟩
      exact h i (by simpa using hb) hik
    · rw [if_neg hik] at hmem
      exact absurd hmem (List.not_mem_nil b)
  · intro hb hnd lid hlid hk
    rw [attachBookmarks_eq, if_pos hk]
    rw [List.count_filter (by simp [hlid])]
    exact List.count_eq_one_of_mem hnd hb

theorem cache_attach_foldl (known : List String) (bms : List Bookmark)
    (m : String → List Bookmark) (i : String) :
    (bms.foldl (attachStepCache known) m) i =
      m i ++
        (if i ≠ "" ∧ i ∈ known then bms.filter (fun b => b.listId == some i) else []) := by
  induction bms generalizing m with
  | nil => simp
  | cons b rest ih =>
    simp only [List.foldl_cons]
    rw [ih]
    unfold attachStepCache
    rcases hbl : b.listId with _ | lid
    · simp [hbl]
    · by_cases hk : lid ≠ "" ∧ lid ∈ known
      · by_cases hi : i = lid
        · subst hi
          simp [hk, hbl, List.append_assoc]
        · simp [hk, hbl, hi, Ne.symm hi]
      · by_cases hik : i ≠ "" ∧ i ∈ known
        · have : lid ≠ i := fun h => hk (h ▸ hik)
          simp [hk, hbl, hik, this]
        · simp [hk, hbl, hik]

theorem attachBookmarksCache_eq (known : List String) (bms : List Bookmark) (i : String) :
    attachBookmarksCache known bms i =
      if i ≠ "" ∧ i ∈ known then bms.filter (fun b => b.listId == some i) else [] := by
  unfold attachBookmarksCache
  rw [cache_attach_foldl]
  simp

/-- C4 counterexample: in the standalone app the attachment pass keeps the
database row order, and the database orders by COALESCE of the titles
under the case-sensitive BINARY collation, so rows titled "B", "a" arrive
and stay in that order — list "l1" ends up with bookmarks ["B", "a"],
which is not ascending under the case-insensitive resolved-title
comparison ("a" should precede "B"). -/
theorem titles_sort_counterexample :
    List.Sorted sqlLe [cexB, cexA] ∧
    attachBookmarks ["l1"] [cexB, cexA] "l1" = [cexB, cexA] ∧
    ¬ List.Sorted bkLe (attachBookmarks ["l1"] [cexB, cexA] "l1") := by
  refine ⟨?_, ?_, ?_⟩
  · decide
  · decide
  · decide

/-- C4 (amended): in the cache app, each list's bookmark set is, at
hierarchy-build time, a permutation of its attached rows sorted ascending
by the lower-cased resolved title (user title, else crawled title, else
"Untitled") under the locale-aware comparison; in the standalone app the
order is instead the database's case-sensitive COALESCE order. -/
theorem cache_bookmarks_sorted (known : List String) (bms : List Bookmark) (i : String) :
    List.Sorted bkLe (cacheBookmarksOf known bms i) ∧
    (cacheBookmarksOf known bms i).Perm (attachBookmarksCache known bms i) :=
  ⟨List.sorted_insertionSort bkLe _, List.perm_insertionSort bkLe _⟩

theorem bookmark_attachment_exclusive_witness :
    (cexB ∈ attachBookmarks ["l1"] [cexB, cexA] "l1" ↔
      (cexB ∈ [cexB, cexA] ∧ "l1" = "l1")) ∧
    (attachBookmarks ["l1"] [cexB, cexA] "l1").count cexB = 1 := by
  have h := bookmark_attachment_exclusive ["l1"] [cexB, cexA] cexB
  exact ⟨h.1 "l1" rfl (by decide) "l1", h.2.2 (by decide) (by decide) "l1" rfl (by decide)⟩

theorem faviconServiceUrl_ne_empty (h : String) : faviconServiceUrl h ≠ "" := by
  intro he
  have hd := congrArg String.data he
  simp [faviconServiceUrl, String.data_append] at hd

/-- C8: the display title is resolved by priority — a nonempty user-set
title is displayed as-is, an empty (falsy) user title falls through to the
crawled title, and with neither the literal "Untitled" renders; with an
empty favicon field, a bookmark whose URL parses gets the favicon-service
URL keyed by the URL's hostname, and a bookmark whose URL does not parse
gets no favicon element at all. -/
theorem render_title_favicon (c : Config) (b : Bookmark) :
    (b.bookmark_title ≠ "" → (renderBookmark c b).title = b.bookmark_title) ∧
    (b.bookmark_title = "" → b.link_title ≠ "" → (renderBookmark c b).title = b.link_title) ∧
    (b.bookmark_title = "" → b.link_title = "" → (renderBookmark c b).title = "Untitled") ∧
    (b.favicon = "" → ∀ h, parseHostname b.url = some h →
      (renderBookmark c b).favicon = some (faviconServiceUrl h)) ∧
    (b.favicon = "" → parseHostname b.url = none → (renderBookmark c b).favicon = none) := by
  refine ⟨?_, ?_, ?_, ?_, ?_⟩
  · intro h1
    simp [renderBookmark, jsOr, h1]
  · intro h1 h2
    simp [renderBookmark, jsOr, h1, h2]
  · intro h1 h2
    simp [renderBookmark, jsOr, h1, h2]
  · intro hf h hp
    have hu : b.url ≠ "" := by
      intro hu
      rw [hu] at hp
      simp [parseHostname, splitScheme] at hp
    simp [renderBookmark, hf, hu, hp, faviconServiceUrl_ne_empty h]
  · intro hf hp
    by_cases hu : b.url = ""
    · simp [renderBookmark, hf, hu]
    · simp [renderBookmark, hf, hu, hp]

theorem render_title_favicon_witness :
    (renderBookmark cfgW cexB).title = "B" ∧
    (renderBookmark cfgW exTitled).title = "Example Page" ∧
    (renderBookmark cfgW exTitled).favicon = some (faviconServiceUrl "example.com") ∧
    (renderBookmark cfgW exPlain).title = "Untitled" ∧
    (renderBookmark cfgW exPlain).favicon = none := by
  have h0 := render_title_favicon cfgW cexB
  have h1 := render_title_favicon cfgW exTitled
  have h2 := render_title_favicon cfgW exPlain
  exact ⟨h0.1 (by decide), h1.2.1 rfl (by decide), h1.2.2.2.1 rfl "example.com" (by decide),
    h2.2.2.1 rfl rfl, h2.2.2.2.2 rfl (by decide)⟩

/-- C9 counterexample: in the standalone app, an absent (non-ok)
config.json does not surface a fatal startup error — initialization
proceeds to the page with silently substituted defaults. -/
theorem missing_config_counterexample :
    initStandaloneConfigStage ConfigFetch.notOk { layoutKey := none, orderKey := none } =
      InitView.page
        { karakeepUrl := "http://localhost:3000", bookmarkTarget := "_self",
          preferences := defaultPreferences } := rfl

/-- C9 (amended): in the cache app an absent or unloadable config.json is
a fatal startup error surfaced as a full-page error state, while in the
standalone app it is silently defaulted; in both, missing optional fields
of a present configuration are defaulted without error (`preferences` to
the empty order/layout, `bookmarkTarget` to the self tab at render
time). -/
theorem config_error_handling (c : ConfigJson) (msg : String) (b : Bookmark) :
    (initCacheConfigStage ConfigFetch.notOk =
      InitView.errorPage "Failed to initialize application" "Could not load config.json") ∧
    (initCacheConfigStage (ConfigFetch.networkError msg) =
      InitView.errorPage "Failed to initialize application" msg) ∧
    (c.karakeepUrl ≠ "" → c.preferences = none →
      initCacheConfigStage (ConfigFetch.ok c) =
        InitView.page
          { karakeepUrl := c.karakeepUrl, bookmarkTarget := c.bookmarkTarget,
            preferences := defaultPreferences }) ∧
    (∀ cf : Config, cf.bookmarkTarget = "" → (renderBookmark cf b).target = "_self") := by
  refine ⟨rfl, rfl, ?_, ?_⟩
  · intro hk hp
    simp [initCacheConfigStage, loadConfigCache, hk, hp]
  · intro cf ht
    simp [renderBookmark, jsOr, ht]

theorem config_error_handling_witness :
    (initCacheConfigStage ConfigFetch.notOk =
      InitView.errorPage "Failed to initialize application" "Could not load config.json") ∧
    (initCacheConfigStage
        (ConfigFetch.ok
          { karakeepUrl := "http://localhost:3000", bookmarkTarget := "", preferences := none }) =
      InitView.page
        { karakeepUrl := "http://localhost:3000", bookmarkTarget := "",
          preferences := defaultPreferences }) ∧
    (renderBookmark cfgW cexA).target = "_self" := by
  have h := config_error_handling
    { karakeepUrl := "http://localhost:3000", bookmarkTarget := "", preferences := none }
    "boom" cexA
  exact ⟨h.1, h.2.2.1 (by decide) rfl, h.2.2.2 cfgW rfl⟩

theorem filterMap_get?_range (l : List (List String)) :
    (List.range l.length).filterMap (fun i => l[i]?) = l := by
  induction l with
  | nil => simp
  | cons a t ih =>
    rw [List.length_cons, List.range_succ_eq_map]
    simp only [List.filterMap_cons, List.getElem?_cons_zero, List.filterMap_map]
    have hc : ((fun i => (a :: t)[i]?) ∘ Nat.succ) = fun i : Nat => t[i]? := by
      funext i
      simp
    rw [hc]
    simp [ih]

/-- C10: `saveColumnOrder` derives the flat order as the concatenation of
the saved layout's column sequences in ascending column order, performs
both local durable writes before the network write, never throws (it is a
total function), and its resulting state — updated preferences and local
store — is the same whatever the network outcome (failures are only
logged; nothing is rolled back). -/
theorem save_column_order_spec (dom : List (List String)) (net : NetResult) (s : SaveState)
    (hlen : dom.length = NUM_COLUMNS) :
    ((saveColumnOrder dom net s).1.preferences.columnOrder =
      (((saveColumnOrder dom net s).1.preferences.columnLayout).getD []).flatten) ∧
    ((saveColumnOrder dom net s).1.store =
      { layoutKey := some dom, orderKey := some dom.flatten }) ∧
    (∃ msg, (saveColumnOrder dom net s).2 =
      [SaveEvent.localWriteLayout dom, SaveEvent.localWriteOrder dom.flatten,
       SaveEvent.netWrite (saveColumnOrder dom net s).1.preferences,
       SaveEvent.logNote msg]) ∧
    (∀ net2 : NetResult, (saveColumnOrder dom net2 s).1 = (saveColumnOrder dom net s).1) := by
  have hflat : ((List.range NUM_COLUMNS).filterMap (fun i => dom[i]?)).flatten =
      dom.flatten := by
    rw [← hlen, filterMap_get?_range]
  refine ⟨?_, ?_, ?_, ?_⟩
  · simp [saveColumnOrder, hflat]
  · simp [saveColumnOrder, hflat]
  · cases net
    · exact ⟨"Preferences saved to server", by simp [saveColumnOrder, hflat]⟩
    · exact ⟨"Server save failed, but localStorage backup exists",
        by simp [saveColumnOrder, hflat]⟩
    · exact ⟨"No server available, using localStorage only", by simp [saveColumnOrder, hflat]⟩
  · intro net2
    simp [saveColumnOrder]

theorem save_column_order_spec_witness :
    ((saveColumnOrder [["a"], ["b", "c"], [], ["d"]] NetResult.failure
        { preferences := defaultPreferences, store := { layoutKey := none, orderKey := none } }
      ).1.preferences.columnOrder =
      (((saveColumnOrder [["a"], ["b", "c"], [], ["d"]] NetResult.failure
          { preferences := defaultPreferences,
            store := { layoutKey := none, orderKey := none } }).1.preferences.columnLayout).getD
        []).flatten) ∧
    (∀ net2 : NetResult,
      (saveColumnOrder [["a"], ["b", "c"], [], ["d"]] net2
          { preferences := defaultPreferences,
            store := { layoutKey := none, orderKey := none } }).1 =
        (saveColumnOrder [["a"], ["b", "c"], [], ["d"]] NetResult.failure
          { preferences := defaultPreferences,
            store := { layoutKey := none, orderKey := none } }).1) := by
  have h := save_column_order_spec [["a"], ["b", "c"], [], ["d"]] NetResult.failure
    { preferences := defaultPreferences, store := { layoutKey := none, orderKey := none } }
    (by decide)
  exact ⟨h.1, h.2.2.2⟩

theorem startsList_iff (n h : List Char) : startsList n h = true ↔ ∃ t, h = n ++ t := by
  induction n generalizing h with
  | nil => simp [startsList]
  | cons a as ih =>
    cases h with
    | nil => simp [startsList]
    | cons b bs =>
      simp only [startsList, Bool.and_eq_true, decide_eq_true_eq, ih, List.cons_append,
        List.cons.injEq]
      constructor
      · rintro ⟨rfl, t, rfl⟩
        exact ⟨t, rfl, rfl⟩
      · rintro ⟨t, rfl, rfl⟩
        exact ⟨rfl, t, rfl⟩

theorem containsSub_iff (n h : List Char) :
    containsSub n h = true ↔ ∃ pre post, h = pre ++ n ++ post := by
  induction h with
  | nil =>
    simp only [containsSub, List.isEmpty_iff]
    constructor
    · rintro rfl
      exact ⟨[], [], rfl⟩
    · rintro ⟨pre, post, hp⟩
      rcases List.append_eq_nil.mp (List.append_eq_nil.mp hp.symm).1 with ⟨_, hn⟩
      exact hn
  | cons c t ih =>
    simp only [containsSub, Bool.or_eq_true, startsList_iff, ih]
    constructor
    · rintro (⟨t2, ht⟩ | ⟨pre, post, hp⟩)
      · exact ⟨[], t2, by simp [ht]⟩
      · exact ⟨c :: pre, post, by simp [hp]⟩
    · rintro ⟨pre, post, hp⟩
      cases pre with
      | nil => exact Or.inl ⟨post, by simpa using hp⟩
      | cons p ps =>
        rw [List.cons_append, List.cons_append] at hp
        injection hp with h1 h2
        exact Or.inr ⟨ps, post, h2⟩

theorem n1Bookmarks_filter (q : String) (n : RNested1) :
    n1Bookmarks (filterN1 q n) = (n1Bookmarks n).map (filterRB q) := by
  simp only [n1Bookmarks, filterN1, filterN2, List.map_append, List.map_flatten, List.map_map]
  rfl

theorem sectionBookmarks_filter (q : String) (s : RSection) :
    sectionBookmarks (filterSection q s) = (sectionBookmarks s).map (filterRB q) := by
  simp only [sectionBookmarks, filterSection, List.map_append, List.map_flatten, List.map_map]
  congr 1
  congr 1
  apply List.map_congr_left
  intro n _
  exact n1Bookmarks_filter q n

theorem allBookmarksC_filter (q : String) (hq : q ≠ "") (cols : List RColumn) :
    allBookmarksC (filterBookmarks q cols) = (allBookmarksC cols).map (filterRB q) := by
  unfold filterBookmarks
  rw [if_neg hq]
  simp only [allBookmarksC, List.map_map, List.map_flatten]
  congr 1
  apply List.map_congr_left
  intro c _
  simp only [Function.comp_apply, filterColumn, List.map_map, List.map_flatten]
  congr 1
  apply List.map_congr_left
  intro s _
  exact sectionBookmarks_filter q s

/-- C6: after a run of `filterBookmarks` with a non-empty (lower-cased,
trimmed) query, each rendered bookmark is visible iff at least one of its
visible text, full title attribute or URL contains the query as a
case-insensitive substring — plain containment, with no prefix or token
restriction. -/
theorem search_filter_matches (q : String) (cols : List RColumn) (b : RBookmark)
    (hq : q ≠ "") (hlow : q.toList.map Char.toLower = q.toList)
    (hb : b ∈ allBookmarksC (filterBookmarks q cols)) :
    b.visible = true ↔ (SubstrCI b.text q ∨ SubstrCI b.title q ∨ SubstrCI b.href q) := by
  rw [allBookmarksC_filter q hq] at hb
  rcases List.mem_map.mp hb with ⟨b0, _, rfl⟩
  have hjq : jsToLower q = q.toList := hlow
  show matchesQuery q b0 = true ↔
    (SubstrCI b0.text q ∨ SubstrCI b0.title q ∨ SubstrCI b0.href q)
  simp only [matchesQuery, Bool.or_eq_true, jsIncludes, containsSub_iff, SubstrCI, hjq]
  exact or_assoc

theorem search_filter_matches_witness :
    (filterRB "rust" rustBm).visible = true ↔
      (SubstrCI (filterRB "rust" rustBm).text "rust" ∨
        SubstrCI (filterRB "rust" rustBm).title "rust" ∨
        SubstrCI (filterRB "rust" rustBm).href "rust") :=
  search_filter_matches "rust" wCols (filterRB "rust" rustBm) (by decide) (by decide)
    (by decide)

theorem showN2_filter (q : String) (n : RNested2) : showN2 (filterN2 q n) = showN2 n := by
  simp only [showN2, filterN2, List.map_map]
  rfl

theorem showN1_filter (q : String) (n : RNested1) : showN1 (filterN1 q n) = showN1 n := by
  simp only [showN1, filterN1, List.map_map]
  congr 1
  apply List.map_congr_left
  intro m _
  exact showN2_filter q m

theorem showSection_filter (q : String) (s : RSection) :
    showSection (filterSection q s) = showSection s := by
  simp only [showSection, filterSection, List.map_map]
  congr 1
  apply List.map_congr_left
  intro n _
  exact showN1_filter q n

theorem showColumn_filter (q : String) (c : RColumn) :
    showColumn (filterColumn q c) = showColumn c := by
  simp only [showColumn, filterColumn, List.map_map]
  congr 1
  apply List.map_congr_left
  intro s _
  exact showSection_filter q s

theorem showN2_show (m : RNested2) : showN2 (showN2 m) = showN2 m := by
  simp only [showN2, List.map_map]
  congr 1

theorem showN1_show (n : RNested1) : showN1 (showN1 n) = showN1 n := by
  simp only [showN1, List.map_map]
  congr 1
  apply List.map_congr_left
  intro m _
  exact showN2_show m

theorem showSection_show (s : RSection) : showSection (showSection s) = showSection s := by
  simp only [showSection, List.map_map]
  congr 1
  apply List.map_congr_left
  intro n _
  exact showN1_show n

theorem showColumn_show (c : RColumn) : showColumn (showColumn c) = showColumn c := by
  simp only [showColumn, List.map_map]
  congr 1
  apply List.map_congr_left
  intro s _
  exact showSection_show s

theorem setAll_filterBookmarks (q : String) (cols : List RColumn) :
    setAllVisible (filterBookmarks q cols) = setAllVisible cols := by
  by_cases hq : q = ""
  · subst hq
    unfold filterBookmarks
    rw [if_pos rfl]
    unfold setAllVisible
    rw [List.map_map]
    apply List.map_congr_left
    intro c _
    exact showColumn_show c
  · unfold filterBookmarks
    rw [if_neg hq]
    unfold setAllVisible
    rw [List.map_map]
    apply List.map_congr_left
    intro c _
    exact showColumn_filter q c

theorem setAll_foldl (qs : List String) (cols : List RColumn) :
    setAllVisible (qs.foldl (fun s q => filterBookmarks q s) cols) = setAllVisible cols := by
  induction qs generalizing cols with
  | nil => rfl
  | cons q qs ih => rw [List.foldl_cons, ih, setAll_filterBookmarks]

/-- C7: after any finite sequence of filter runs, a single run with the
empty query restores the grid to the initial all-visible render, and
running it again changes nothing. -/
theorem search_reset_restores (cols : List RColumn) (qs : List String)
    (h : setAllVisible cols = cols) :
    filterBookmarks "" (qs.foldl (fun s q => filterBookmarks q s) cols) = cols ∧
    filterBookmarks ""
        (filterBookmarks "" (qs.foldl (fun s q => filterBookmarks q s) cols)) =
      filterBookmarks "" (qs.foldl (fun s q => filterBookmarks q s) cols) := by
  have h0 : ∀ x : List RColumn, filterBookmarks "" x = setAllVisible x := by
    intro x
    simp [filterBookmarks]
  have h1 : filterBookmarks "" (qs.foldl (fun s q => filterBookmarks q s) cols) = cols := by
    rw [h0, setAll_foldl, h]
  refine ⟨h1, ?_⟩
  rw [h1, h0, h]

theorem search_reset_restores_witness :
    filterBookmarks "" (["rust"].foldl (fun s q => filterBookmarks q s) wCols) = wCols ∧
    filterBookmarks ""
        (filterBookmarks "" (["rust"].foldl (fun s q => filterBookmarks q s) wCols)) =
      filterBookmarks "" (["rust"].foldl (fun s q => filterBookmarks q s) wCols) :=
  search_reset_restores wCols ["rust"] (by decide)

theorem mapGet_mem {m : List KList} {i : String} {l : KList}
    (h : mapGet m i = some l) : l ∈ m ∧ l.id = i := by
  unfold mapGet at h
  exact ⟨List.mem_of_find?_eq_some h, by simpa using List.find?_some h⟩

theorem nodupIds_cons {x : KList} {t : List KList} (hn : NodupIds (x :: t)) :
    x.id ∉ t.map KList.id ∧ NodupIds t := by
  unfold NodupIds at hn ⊢
  rw [List.map_cons, List.nodup_cons] at hn
  exact hn

theorem mapDelete_perm {m : List KList} {i : String} {l : KList}
    (hn : NodupIds m) (h : mapGet m i = some l) : m.Perm (l :: mapDelete m i) := by
  induction m with
  | nil => simp [mapGet] at h
  | cons x t ih =>
    unfold mapGet at h
    by_cases hx : x.id = i
    · rw [List.find?_cons_of_pos _ (by simpa using hx)] at h
      injection h with h
      subst h
      have hdel : mapDelete (x :: t) i = t := by
        unfold mapDelete
        rw [List.filter_cons, if_neg (by simp [hx])]
        apply List.filter_eq_self.mpr
        intro a ha
        have hne : a.id ≠ i := by
          intro hai
          apply (nodupIds_cons hn).1
          rw [hx, ← hai]
          exact List.mem_map_of_mem _ ha
        simpa using hne
      rw [hdel]
    · rw [List.find?_cons_of_neg _ (by simpa using hx)] at h
      have hperm := ih (nodupIds_cons hn).2 h
      have hdel : mapDelete (x :: t) i = x :: mapDelete t i := by
        unfold mapDelete
        rw [List.filter_cons, if_pos (by simpa using hx)]
      rw [hdel]
      exact (hperm.cons x).trans (List.Perm.swap l x _)

theorem nodupIds_mapDelete {m : List KList} {i : String} (hn : NodupIds m) :
    NodupIds (mapDelete m i) := by
  unfold NodupIds at hn ⊢
  exact List.Nodup.sublist (List.Sublist.map KList.id (List.filter_sublist m)) hn

theorem mapGet_of_mem {m : List KList} {l : KList} (hn : NodupIds m) (hl : l ∈ m) :
    mapGet m l.id = some l := by
  induction m with
  | nil => cases hl
  | cons x t ih =>
    unfold mapGet
    by_cases hx : x.id = l.id
    · have hxl : l = x := by
        rcases List.mem_cons.mp hl with rfl | hlt
        · rfl
        · exfalso
          apply (nodupIds_cons hn).1
          rw [hx]
          exact List.mem_map_of_mem _ hlt
      rw [List.find?_cons_of_pos _ (by simpa using hx)]
      rw [hxl]
    · have hlt : l ∈ t := by
        rcases List.mem_cons.mp hl with rfl | hlt
        · exact absurd rfl hx
        · exact hlt
      rw [List.find?_cons_of_neg _ (by simpa using hx)]
      exact ih (nodupIds_cons hn).2 hlt

theorem mem_mapDelete {m : List KList} {l : KList} {i : String} (hl : l ∈ m)
    (hne : l.id ≠ i) : l ∈ mapDelete m i :=
  List.mem_filter.mpr ⟨hl, by simpa using hne⟩

theorem placeIds_perm (ids : List String) (col m : List KList) (hn : NodupIds m) :
    ((placeIds ids col m).1 ++ (placeIds ids col m).2).Perm (col ++ m) ∧
      NodupIds (placeIds ids col m).2 := by
  induction ids generalizing col m with
  | nil => simp [placeIds, hn]
  | cons i ids ih =>
    unfold placeIds
    cases hg : mapGet m i with
    | none => exact ih col m hn
    | some l =>
      have hperm := mapDelete_perm hn hg
      have hn2 := nodupIds_mapDelete (i := i) hn
      rcases ih (col ++ [l]) (mapDelete m i) hn2 with ⟨hp, hnn⟩
      refine ⟨hp.trans ?_, hnn⟩
      have heq : (col ++ [l]) ++ mapDelete m i = col ++ (l :: mapDelete m i) := by simp
      rw [heq]
      exact List.Perm.append_left col hperm.symm

theorem placeIds_mono {l : KList} (ids : List String) (col m : List KList) (hl : l ∈ col) :
    l ∈ (placeIds ids col m).1 := by
  induction ids generalizing col m with
  | nil => simpa [placeIds] using hl
  | cons i ids ih =>
    unfold placeIds
    cases hg : mapGet m i with
    | none => exact ih col m hl
    | some x => exact ih _ _ (List.mem_append_left _ hl)

theorem placeIds_mem_snd {l : KList} (ids : List String) (col m : List KList)
    (hl : l ∈ m) (hni : l.id ∉ ids) : l ∈ (placeIds ids col m).2 := by
  induction ids generalizing col m with
  | nil => simpa [placeIds] using hl
  | cons i ids ih =>
    unfold placeIds
    have hii : l.id ≠ i := fun h => hni (h ▸ List.mem_cons_self i ids)
    have hni2 : l.id ∉ ids := fun h => hni (List.mem_cons_of_mem _ h)
    cases hg : mapGet m i with
    | none => exact ih col m hl hni2
    | some x => exact ih _ _ (mem_mapDelete hl hii) hni2

theorem placeIds_mem_fst {l : KList} (ids : List String) (col m : List KList)
    (hn : NodupIds m) (hl : l ∈ m) (hid : l.id ∈ ids) : l ∈ (placeIds ids col m).1 := by
  induction ids generalizing col m with
  | nil => cases hid
  | cons i ids ih =>
    unfold placeIds
    by_cases hii : l.id = i
    · subst hii
      rw [mapGet_of_mem hn hl]
      exact placeIds_mono ids _ _ (by simp)
    · have hid2 : l.id ∈ ids := by
        rcases List.mem_cons.mp hid with h | h
        · exact absurd h hii
        · exact h
      cases hg : mapGet m i with
      | none => exact ih col m hn hl hid2
      | some x => exact ih _ _ (nodupIds_mapDelete hn) (mem_mapDelete hl hii) hid2

theorem placeIds_subset {x : KList} (ids : List String) (col m : List KList) :
    (x ∈ (placeIds ids col m).1 → x ∈ col ∨ x ∈ m) ∧
      (x ∈ (placeIds ids col m).2 → x ∈ m) := by
  induction ids generalizing col m with
  | nil => exact ⟨fun h => Or.inl h, fun h => h⟩
  | cons i ids ih =>
    unfold placeIds
    cases hg : mapGet m i with
    | none => exact ih col m
    | some l =>
      have hlm : l ∈ m := (mapGet_mem hg).1
      have hdel : ∀ y : KList, y ∈ mapDelete m i → y ∈ m := fun y hy =>
        List.mem_of_mem_filter hy
      rcases ih (col ++ [l]) (mapDelete m i) with ⟨h1, h2⟩
      constructor
      · intro hx
        rcases h1 hx with hc | hm2
        · rcases List.mem_append.mp hc with hc | hc
          · exact Or.inl hc
          · rw [List.mem_singleton.mp hc]
            exact Or.inr hlm
        · exact Or.inr (hdel _ hm2)
      · intro hx
        exact hdel _ (h2 hx)

theorem placeColumns_length (lay : Nat → List String) (cs : List Nat)
    (cols : List (List KList)) (m : List KList) :
    (placeColumns lay cs cols m).1.length = cols.length + cs.length := by
  induction cs generalizing cols m with
  | nil => simp [placeColumns]
  | cons c cs ih =>
    unfold placeColumns
    rw [ih]
    simp only [List.length_append, List.length_cons, List.length_nil]
    omega

theorem placeColumns_spec (lay : Nat → List String) (cs : List Nat)
    (cols : List (List KList)) (m : List KList) (hn : NodupIds m) :
    ((placeColumns lay cs cols m).1.flatten ++ (placeColumns lay cs cols m).2).Perm
        (cols.flatten ++ m) ∧
      NodupIds (placeColumns lay cs cols m).2 := by
  induction cs generalizing cols m with
  | nil => exact ⟨List.Perm.refl _, hn⟩
  | cons c cs ih =>
    unfold placeColumns
    rcases placeIds_perm (lay c) [] m hn with ⟨hp, hn2⟩
    rcases ih (cols ++ [(placeIds (lay c) [] m).1]) (placeIds (lay c) [] m).2 hn2 with
      ⟨hp2, hn3⟩
    refine ⟨hp2.trans ?_, hn3⟩
    have heq : (cols ++ [(placeIds (lay c) [] m).1]).flatten ++ (placeIds (lay c) [] m).2 =
        cols.flatten ++ ((placeIds (lay c) [] m).1 ++ (placeIds (lay c) [] m).2) := by
      simp
    rw [heq]
    apply List.Perm.append_left
    simpa using hp

theorem placeColumns_extends (lay : Nat → List String) (cs : List Nat)
    (cols : List (List KList)) (m : List KList) :
    ∃ rest, (placeColumns lay cs cols m).1 = cols ++ rest := by
  induction cs generalizing cols m with
  | nil => exact ⟨[], by simp [placeColumns]⟩
  | cons c cs ih =>
    unfold placeColumns
    rcases ih (cols ++ [(placeIds (lay c) [] m).1]) (placeIds (lay c) [] m).2 with ⟨rest, hr⟩
    exact ⟨[(placeIds (lay c) [] m).1] ++ rest, by rw [hr]; simp⟩

theorem placeColumns_subset {x : KList} (lay : Nat → List String) (cs : List Nat)
    (cols : List (List KList)) (m : List KList)
    (h : x ∈ (placeColumns lay cs cols m).1.flatten ∨ x ∈ (placeColumns lay cs cols m).2) :
    x ∈ cols.flatten ∨ x ∈ m := by
  induction cs generalizing cols m with
  | nil => exact h
  | cons c cs ih =>
    unfold placeColumns at h
    rcases ih _ _ h with hc | hm
    · rw [List.flatten_append] at hc
      rcases List.mem_append.mp hc with hc | hc
      · exact Or.inl hc
      · simp only [List.flatten_cons, List.flatten_nil, List.append_nil] at hc
        rcases (placeIds_subset (lay c) [] m).1 hc with h0 | hm
        · cases h0
        · exact Or.inr hm
    · exact Or.inr ((placeIds_subset (lay c) [] m).2 hm)

theorem getD_append_length (xs ys : List (List KList)) (k : Nat) :
    (xs ++ ys).getD (xs.length + k) [] = ys.getD k [] := by
  induction xs with
  | nil => simp
  | cons x t ih =>
    simp only [List.cons_append, List.length_cons]
    rw [show t.length + 1 + k = (t.length + k) + 1 by omega]
    rw [List.getD_cons_succ]
    exact ih

theorem placeColumns_mem (lay : Nat → List String) (cs : List Nat)
    (cols : List (List KList)) (m : List KList) (hn : NodupIds m) {l : KList} (hl : l ∈ m) :
    ∀ j (hj : j < cs.length),
      (lay (cs.get ⟨j, hj⟩)).contains l.id = true →
      (∀ j2, (h2 : j2 < j) → (lay (cs.get ⟨j2, by omega⟩)).contains l.id = false) →
      l ∈ (placeColumns lay cs cols m).1.getD (cols.length + j) [] := by
  induction cs generalizing cols m with
  | nil =>
    intro j hj
    exact absurd hj (by simp)
  | cons c cs ih =>
    intro j hj hjc hpre
    unfold placeColumns
    cases j with
    | zero =>
      have hmem : l ∈ (placeIds (lay c) [] m).1 := by
        apply placeIds_mem_fst _ _ _ hn hl
        simpa using hjc
      rcases placeColumns_extends lay cs (cols ++ [(placeIds (lay c) [] m).1])
        (placeIds (lay c) [] m).2 with ⟨rest, hr⟩
      rw [hr, Nat.add_zero]
      rw [show cols ++ [(placeIds (lay c) [] m).1] ++ rest =
        cols ++ ([(placeIds (lay c) [] m).1] ++ rest) by simp]
      rw [show cols.length = cols.length + 0 by omega]
      rw [getD_append_length cols _ 0]
      simpa using hmem
    | succ j =>
      have h0 : (lay c).contains l.id = false := hpre 0 (Nat.succ_pos j)
      have hnotmem : l.id ∉ lay c := by simpa using h0
      have hl2 : l ∈ (placeIds (lay c) [] m).2 := placeIds_mem_snd _ _ _ hl hnotmem
      have hn2 : NodupIds (placeIds (lay c) [] m).2 := (placeIds_perm (lay c) [] m hn).2
      have hres := ih (cols ++ [(placeIds (lay c) [] m).1]) (placeIds (lay c) [] m).2 hn2 hl2
        j (by simpa using Nat.lt_of_succ_lt_succ hj) hjc
        (fun j2 h2 => hpre (j2 + 1) (Nat.succ_lt_succ h2))
      rw [show cols.length + (j + 1) = (cols ++ [(placeIds (lay c) [] m).1]).length + j by
        simp; omega]
      exact hres

theorem flatten_set_append (cols : List (List KList)) (k : Nat) (x : KList)
    (hk : k < cols.length) :
    (cols.set k (cols.getD k [] ++ [x])).flatten.Perm (cols.flatten ++ [x]) := by
  induction cols generalizing k with
  | nil => simp at hk
  | cons c t ih =>
    cases k with
    | zero =>
      simp only [List.set_cons_zero, List.getD_cons_zero, List.flatten_cons]
      have heq : (c ++ [x]) ++ t.flatten = c ++ ([x] ++ t.flatten) := by simp
      rw [heq]
      have hgoal : (c ++ (t.flatten ++ [x])) = (c ++ t.flatten) ++ [x] := by simp
      rw [← hgoal]
      exact List.Perm.append_left c List.perm_append_comm
    | succ k =>
      simp only [List.set_cons_succ, List.getD_cons_succ, List.flatten_cons]
      have hp := ih k (Nat.lt_of_succ_lt_succ hk)
      have hgoal : (c ++ (t.flatten ++ [x])) = (c ++ t.flatten) ++ [x] := by simp
      rw [← hgoal]
      exact List.Perm.append_left c hp

theorem roundRobinFrom_spec (rest : List KList) (cols : List (List KList)) (i : Nat)
    (hlen : cols.length = NUM_COLUMNS) :
    (roundRobinFrom cols i rest).flatten.Perm (cols.flatten ++ rest) ∧
      (roundRobinFrom cols i rest).length = NUM_COLUMNS := by
  induction rest generalizing cols i with
  | nil => simp [roundRobinFrom, hlen]
  | cons l rest ih =>
    unfold roundRobinFrom
    have hk : i % NUM_COLUMNS < cols.length := by
      rw [hlen]
      exact Nat.mod_lt _ (by decide)
    have hset := flatten_set_append cols (i % NUM_COLUMNS) l hk
    rcases ih (cols.set (i % NUM_COLUMNS) (cols.getD (i % NUM_COLUMNS) [] ++ [l])) (i + 1)
      (by simp [hlen]) with ⟨hp, hlen2⟩
    refine ⟨hp.trans ?_, hlen2⟩
    have hgoal : (cols.flatten ++ [l]) ++ rest = cols.flatten ++ (l :: rest) := by simp
    rw [← hgoal]
    exact hset.append_right rest

theorem roundRobinFrom_mem (rest : List KList) (cols : List (List KList)) (i k : Nat)
    (hk : k < cols.length) {l : KList} (hl : l ∈ cols.getD k []) :
    l ∈ (roundRobinFrom cols i rest).getD k [] := by
  induction rest generalizing cols i with
  | nil => simpa [roundRobinFrom] using hl
  | cons x rest ih =>
    unfold roundRobinFrom
    apply ih _ (i + 1) (by simpa using hk)
    by_cases hik : i % NUM_COLUMNS = k
    · subst hik
      have hkk : i % NUM_COLUMNS < (cols.set (i % NUM_COLUMNS)
          (cols.getD (i % NUM_COLUMNS) [] ++ [x])).length := by simpa using hk
      rw [List.getD_eq_getElem _ _ hkk, List.getElem_set_self]
      exact List.mem_append_left _ hl
    · have hkk : k < (cols.set (i % NUM_COLUMNS)
          (cols.getD (i % NUM_COLUMNS) [] ++ [x])).length := by simpa using hk
      rw [List.getD_eq_getElem _ _ hkk, List.getElem_set_ne hik, ← List.getD_eq_getElem _ _ hk]
      exact hl

theorem flatten_replicate_nil :
    (List.replicate NUM_COLUMNS ([] : List KList)).flatten = [] := rfl

theorem assignColumns_partition_core (pool : List KList)
    (layout : Option (List (List String))) (order : List String) (hn : NodupIds pool) :
    (assignColumns pool layout order).length = NUM_COLUMNS ∧
      (assignColumns pool layout order).flatten.Perm pool := by
  cases layout with
  | some L =>
    unfold assignColumns
    have hlen : (placeColumns (layAt L) (List.range NUM_COLUMNS) [] pool).1.length =
        NUM_COLUMNS := by
      rw [placeColumns_length]
      simp
    rcases placeColumns_spec (layAt L) (List.range NUM_COLUMNS) [] pool hn with ⟨hp, _⟩
    rcases roundRobinFrom_spec (placeColumns (layAt L) (List.range NUM_COLUMNS) [] pool).2
      (placeColumns (layAt L) (List.range NUM_COLUMNS) [] pool).1 0 hlen with ⟨hp2, hlen2⟩
    exact ⟨hlen2, hp2.trans (by simpa using hp)⟩
  | none =>
    unfold assignColumns
    by_cases ho : order.isEmpty
    · rw [if_pos ho]
      rcases roundRobinFrom_spec pool (List.replicate NUM_COLUMNS []) 0 (by simp) with
        ⟨hp2, hlen2⟩
      refine ⟨hlen2, hp2.trans ?_⟩
      rw [flatten_replicate_nil, List.nil_append]
    · rw [if_neg ho]
      rcases placeIds_perm order [] pool hn with ⟨hp, _⟩
      rcases roundRobinFrom_spec ((placeIds order [] pool).1 ++ (placeIds order [] pool).2)
        (List.replicate NUM_COLUMNS []) 0 (by simp) with ⟨hp2, hlen2⟩
      refine ⟨hlen2, hp2.trans ?_⟩
      rw [flatten_replicate_nil, List.nil_append]
      simpa using hp

/-- C1: for every root-list pool (with its database-unique ids) and every
combination of present/absent saved columnLayout and legacy columnOrder,
the column assignment of `renderLists` yields exactly NUM_COLUMNS columns
whose concatenation is a permutation of the pool — every root list in
exactly one column exactly once, no duplicates, no omissions, even when
the saved layout names ids absent from the pool or repeats an id. -/
theorem assign_columns_partition (pool : List KList) (layout : Option (List (List String)))
    (order : List String) (hn : NodupIds pool) :
    (assignColumns pool layout order).length = NUM_COLUMNS ∧
      (assignColumns pool layout order).flatten.Perm pool :=
  assignColumns_partition_core pool layout order hn

theorem assign_columns_partition_witness :
    (assignColumns wPool (some [["l2", "zz", "l2"], [], ["l1"]]) ["l9"]).length =
        NUM_COLUMNS ∧
      (assignColumns wPool (some [["l2", "zz", "l2"], [], ["l1"]]) ["l9"]).flatten.Perm
        wPool :=
  assign_columns_partition wPool (some [["l2", "zz", "l2"], [], ["l1"]]) ["l9"]
    (by unfold NodupIds; decide)

theorem firstLayoutCol_spec {L : List (List String)} {i : String} {c : Nat}
    (h : firstLayoutCol L i = some c) :
    c < NUM_COLUMNS ∧ (layAt L c).contains i = true ∧
      ∀ j, j < c → (layAt L j).contains i = false := by
  unfold firstLayoutCol at h
  rw [show List.range NUM_COLUMNS = [0, 1, 2, 3] from rfl] at h
  by_cases h0 : ((layAt L 0).contains i) = true
  · rw [List.find?_cons_of_pos (p := fun c => (layAt L c).contains i) _ h0] at h
    injection h with h
    subst h
    refine ⟨by decide, h0, ?_⟩
    intro j hj
    omega
  · rw [List.find?_cons_of_neg (p := fun c => (layAt L c).contains i) _ h0] at h
    by_cases h1 : ((layAt L 1).contains i) = true
    · rw [List.find?_cons_of_pos (p := fun c => (layAt L c).contains i) _ h1] at h
      injection h with h
      subst h
      refine ⟨by decide, h1, ?_⟩
      intro j hj
      interval_cases j
      simpa using h0
    · rw [List.find?_cons_of_neg (p := fun c => (layAt L c).contains i) _ h1] at h
      by_cases h2 : ((layAt L 2).contains i) = true
      · rw [List.find?_cons_of_pos (p := fun c => (layAt L c).contains i) _ h2] at h
        injection h with h
        subst h
        refine ⟨by decide, h2, ?_⟩
        intro j hj
        interval_cases j
        · simpa using h0
        · simpa using h1
      · rw [List.find?_cons_of_neg (p := fun c => (layAt L c).contains i) _ h2] at h
        by_cases h3 : ((layAt L 3).contains i) = true
        · rw [List.find?_cons_of_pos (p := fun c => (layAt L c).contains i) _ h3] at h
          injection h with h
          subst h
          refine ⟨by decide, h3, ?_⟩
          intro j hj
          interval_cases j
          · simpa using h0
          · simpa using h1
          · simpa using h2
        · rw [List.find?_cons_of_neg (p := fun c => (layAt L c).contains i) _ h3] at h
          simp at h

theorem columns_unique {cols : List (List KList)} (hnd : cols.flatten.Nodup)
    {l : KList} {k1 k2 : Nat} (h1 : k1 < cols.length) (h2 : k2 < cols.length)
    (hm1 : l ∈ cols.getD k1 []) (hm2 : l ∈ cols.getD k2 []) : k1 = k2 := by
  by_contra hne
  rcases List.nodup_flatten.mp hnd with ⟨_, hdisj⟩
  have hpair := List.pairwise_iff_getElem.mp hdisj
  rw [List.getD_eq_getElem _ _ h1] at hm1
  rw [List.getD_eq_getElem _ _ h2] at hm2
  rcases Nat.lt_or_ge k1 k2 with hlt | hge
  · exact hpair k1 k2 h1 h2 hlt hm1 hm2
  · have hlt2 : k2 < k1 := Nat.lt_of_le_of_ne hge (fun hh => hne hh.symm)
    exact hpair k2 k1 h2 h1 hlt2 hm2 hm1

/-- C2: with a saved columnLayout present, the column assignment never
consults columnOrder (the results for any two order values coincide), and
every id the layout places that resolves in the current pool lands exactly
in the column the layout assigns it to — its first mentioning column —
and in no other column. -/
theorem layout_precedence (pool : List KList) (L : List (List String)) (order : List String)
    (l : KList) (c : Nat) (hn : NodupIds pool) (hl : l ∈ pool)
    (hc : firstLayoutCol L l.id = some c) :
    assignColumns pool (some L) order = assignColumns pool (some L) [] ∧
      l ∈ (assignColumns pool (some L) order).getD c [] ∧
      ∀ c2, c2 < NUM_COLUMNS → l ∈ (assignColumns pool (some L) order).getD c2 [] →
        c2 = c := by
  rcases firstLayoutCol_spec hc with ⟨hcN, hcc, hprev⟩
  have hlen : (placeColumns (layAt L) (List.range NUM_COLUMNS) [] pool).1.length =
      NUM_COLUMNS := by
    rw [placeColumns_length]
    simp
  have hmem0 : l ∈ (placeColumns (layAt L) (List.range NUM_COLUMNS) [] pool).1.getD c [] := by
    have hres := placeColumns_mem (layAt L) (List.range NUM_COLUMNS) [] pool hn hl c
      (by simpa using hcN)
      (by
        rw [show (List.range NUM_COLUMNS).get ⟨c, by simpa using hcN⟩ = c by
          simp [List.get_eq_getElem]]
        exact hcc)
      (by
        intro j2 h2
        rw [show (List.range NUM_COLUMNS).get ⟨j2, by simp; omega⟩ = j2 by
          simp [List.get_eq_getElem]]
        exact hprev j2 h2)
    simpa using hres
  have hmem : l ∈ (assignColumns pool (some L) order).getD c [] := by
    show l ∈ (roundRobinFrom (placeColumns (layAt L) (List.range NUM_COLUMNS) [] pool).1 0
      (placeColumns (layAt L) (List.range NUM_COLUMNS) [] pool).2).getD c []
    exact roundRobinFrom_mem _ _ 0 c (by rw [hlen]; exact hcN) hmem0
  refine ⟨rfl, hmem, ?_⟩
  intro c2 hc2N hmem2
  rcases assignColumns_partition_core pool (some L) order hn with ⟨hlenA, hflat⟩
  have hndpool : pool.Nodup := List.Nodup.of_map _ hn
  have hndflat : (assignColumns pool (some L) order).flatten.Nodup :=
    (hflat.nodup_iff).mpr hndpool
  exact columns_unique hndflat (by rw [hlenA]; exact hc2N) (by rw [hlenA]; exact hcN)
    hmem2 hmem

theorem layout_precedence_witness :
    wLb ∈ (assignColumns wPool (some [[], ["l2", "l1"], ["l2"], []]) ["l3", "l2", "l1"]).getD
      1 [] :=
  (layout_precedence wPool [[], ["l2", "l1"], ["l2"], []] ["l3", "l2", "l1"] wLb 1
    (by unfold NodupIds; decide) (by simp [wPool]) rfl).2.1

theorem hasB_node (i n ic : String) (bms : List Bookmark) (cs : List KList) :
    hasBookmarksInChildren (KList.node i n ic bms cs) =
      (decide (0 < bms.length) || anyHasBookmarks cs) := rfl

theorem anyHasBookmarks_iff (cs : List KList) :
    anyHasBookmarks cs = true ↔ ∃ c ∈ cs, hasBookmarksInChildren c = true := by
  induction cs with
  | nil => simp [anyHasBookmarks]
  | cons c t ih =>
    unfold anyHasBookmarks
    rw [Bool.or_eq_true, ih]
    constructor
    · rintro (hc | ⟨x, hx, hB⟩)
      · exact ⟨c, List.mem_cons_self c t, hc⟩
      · exact ⟨x, List.mem_cons_of_mem c hx, hB⟩
    · rintro ⟨x, hx, hB⟩
      rcases List.mem_cons.mp hx with rfl | hx
      · exact Or.inl hB
      · exact Or.inr ⟨x, hx, hB⟩

theorem hasB_sound : ∀ l : KList, hasBookmarksInChildren l = true →
    ∃ d, Subnode d l ∧ d.bookmarks ≠ [] := by
  have main : ∀ nn : Nat, ∀ l : KList, sizeOf l ≤ nn → hasBookmarksInChildren l = true →
      ∃ d, Subnode d l ∧ d.bookmarks ≠ [] := by
    intro nn
    induction nn with
    | zero =>
      intro l hsz
      exfalso
      cases l with
      | node i n ic bms cs =>
        simp [KList.node.sizeOf_spec] at hsz
    | succ nn ih =>
      intro l hsz hB
      cases l with
      | node i n ic bms cs =>
        rw [hasB_node, Bool.or_eq_true, decide_eq_true_eq] at hB
        rcases hB with hb | hany
        · refine ⟨KList.node i n ic bms cs, Subnode.refl _, ?_⟩
          show bms ≠ []
          exact List.ne_nil_of_length_pos hb
        · rcases (anyHasBookmarks_iff cs).mp hany with ⟨c, hcm, hcB⟩
          have hcs : sizeOf c ≤ nn := by
            have hlt := List.sizeOf_lt_of_mem hcm
            have hnd : sizeOf (KList.node i n ic bms cs) =
                1 + sizeOf i + sizeOf n + sizeOf ic + sizeOf bms + sizeOf cs := by
              simp [KList.node.sizeOf_spec]
            omega
          rcases ih c hcs hcB with ⟨d, hsub, hne⟩
          exact ⟨d, Subnode.step hcm hsub, hne⟩
  intro l
  exact main (sizeOf l) l (Nat.le_refl _)

theorem hasB_complete : ∀ {d l : KList}, Subnode d l → d.bookmarks ≠ [] →
    hasBookmarksInChildren l = true := by
  intro d l hsub
  induction hsub with
  | refl =>
    intro hne
    cases hd : d with
    | node i n ic bms cs =>
      rw [hasB_node, Bool.or_eq_true, decide_eq_true_eq]
      refine Or.inl (List.length_pos_of_ne_nil ?_)
      rw [hd] at hne
      exact hne
  | step hcm _ ih =>
    intro hne
    rw [hasB_node, Bool.or_eq_true]
    exact Or.inr ((anyHasBookmarks_iff _).mpr ⟨_, hcm, ih hne⟩)

theorem hasB_iff (l : KList) :
    hasBookmarksInChildren l = true ↔ ∃ d, Subnode d l ∧ d.bookmarks ≠ [] :=
  ⟨hasB_sound l, fun ⟨_, hsub, hne⟩ => hasB_complete hsub hne⟩

theorem rootPool_filter_eq (rows : List ListRow) (bms : List Bookmark) :
    rootPool rows bms =
      ((rows.filter (fun r => !(optTruthy r.parentId))).map
          (buildKList rows (attachBookmarks (rows.map ListRow.id) bms) rows.length)).filter
        (fun l => hasBookmarksInChildren l) := by
  unfold rootPool
  apply List.filter_congr
  intro l _
  cases l with
  | node i n ic bs cs =>
    show (decide (0 < bs.length) || hasBookmarksInChildren (KList.node i n ic bs cs)) = _
    rw [hasB_node]
    cases hb : decide (0 < bs.length) <;> simp

theorem assignColumns_subset (pool : List KList) (layout : Option (List (List String)))
    (order : List String) {x : KList} {col : List KList}
    (hcol : col ∈ assignColumns pool layout order) (hx : x ∈ col) : x ∈ pool := by
  have hflat : x ∈ (assignColumns pool layout order).flatten :=
    List.mem_flatten_of_mem hcol hx
  cases layout with
  | some L =>
    unfold assignColumns at hflat
    have hlen : (placeColumns (layAt L) (List.range NUM_COLUMNS) [] pool).1.length =
        NUM_COLUMNS := by
      rw [placeColumns_length]
      simp
    have hperm := (roundRobinFrom_spec
      (placeColumns (layAt L) (List.range NUM_COLUMNS) [] pool).2
      (placeColumns (layAt L) (List.range NUM_COLUMNS) [] pool).1 0 hlen).1
    have hx2 := hperm.mem_iff.mp hflat
    rcases List.mem_append.mp hx2 with hc | hm
    · rcases placeColumns_subset (layAt L) _ [] pool (Or.inl hc) with h0 | hp
      · simp at h0
      · exact hp
    · rcases placeColumns_subset (layAt L) _ [] pool (Or.inr hm) with h0 | hp
      · simp at h0
      · exact hp
  | none =>
    unfold assignColumns at hflat
    by_cases ho : order.isEmpty
    · rw [if_pos ho] at hflat
      have hperm := (roundRobinFrom_spec pool (List.replicate NUM_COLUMNS []) 0 (by simp)).1
      have hx2 := hperm.mem_iff.mp hflat
      rcases List.mem_append.mp hx2 with hc | hm
      · rw [flatten_replicate_nil] at hc
        cases hc
      · exact hm
    · rw [if_neg ho] at hflat
      have hperm := (roundRobinFrom_spec
        ((placeIds order [] pool).1 ++ (placeIds order [] pool).2)
        (List.replicate NUM_COLUMNS []) 0 (by simp)).1
      have hx2 := hperm.mem_iff.mp hflat
      rcases List.mem_append.mp hx2 with hc | hm
      · rw [flatten_replicate_nil] at hc
        cases hc
      · rcases List.mem_append.mp hm with h1 | h2
        · rcases (placeIds_subset order [] pool).1 h1 with h0 | hp
          · cases h0
          · exact hp
        · exact (placeIds_subset order [] pool).2 h2

/-- C5: `hasBookmarksInChildren` is true exactly when the list or some
descendant at any depth owns a bookmark; the root pool handed to the
layout is exactly the parentless built lists satisfying it; and a list
failing it is never placed in any column of the assignment. -/
theorem visibility_filter_spec :
    (∀ l : KList,
        hasBookmarksInChildren l = true ↔ ∃ d, Subnode d l ∧ d.bookmarks ≠ []) ∧
    (∀ (rows : List ListRow) (bms : List Bookmark),
        rootPool rows bms =
          ((rows.filter (fun r => !(optTruthy r.parentId))).map
              (buildKList rows (attachBookmarks (rows.map ListRow.id) bms)
                rows.length)).filter
            (fun l => hasBookmarksInChildren l)) ∧
    (∀ (rows : List ListRow) (bms : List Bookmark)
        (layout : Option (List (List String))) (order : List String) (l : KList),
        hasBookmarksInChildren l = false →
        ∀ col ∈ assignColumns (rootPool rows bms) layout order, l ∉ col) := by
  refine ⟨hasB_iff, rootPool_filter_eq, ?_⟩
  intro rows bms layout order l hB col hcol hmem
  have hpool : l ∈ rootPool rows bms :=
    assignColumns_subset (rootPool rows bms) layout order hcol hmem
  rw [rootPool_filter_eq] at hpool
  rcases List.mem_filter.mp hpool with ⟨_, hBtrue⟩
  rw [hB] at hBtrue
  cases hBtrue

theorem visibility_filter_spec_witness :
    wEmpty ∉ ([KList.node "l1" "A" "" [cexA] []] : List KList) :=
  visibility_filter_spec.2.2 wRows [cexA] none [] wEmpty rfl
    [KList.node "l1" "A" "" [cexA] []]
    (by
      rw [show assignColumns (rootPool wRows [cexA]) none [] =
        [[KList.node "l1" "A" "" [cexA] []], [], [], []] from rfl]
      exact List.mem_cons_self _ _)

end Karakeep
